import Mathlib

namespace LDConfig

/-- A parsed JavaScript value as it appears in configuration documents:
scalars (string, number, boolean, null), the `undefined` absent-marker,
arrays, and plain objects (ordered association lists, keys unique in any
document produced by `JSON`-style parsing). Numeric literals are embedded
as integers; no claim depends on non-integral arithmetic. -/
inductive Value where
  | undefined
  | null
  | bool (b : Bool)
  | num (n : Int)
  | str (s : String)
  | arr (elems : List Value)
  | obj (fields : List (String × Value))

/-- A document: a JavaScript object as an ordered association list. -/
abbrev Doc := List (String × Value)

def Value.isUndefined : Value → Bool
  | .undefined => true
  | _ => false

def Value.isNull : Value → Bool
  | .null => true
  | _ => false

def Value.isArr : Value → Bool
  | .arr _ => true
  | _ => false

/-- The scalars of claim C1: string, number, boolean, explicit null. -/
def Value.isScalar : Value → Bool
  | .str _ | .num _ | .bool _ | .null => true
  | _ => false

/-- Fields of an object value; other values expose no fields. -/
def Value.objFields : Value → Doc
  | .obj fields => fields
  | _ => []

/-- JavaScript property assignment `d[k] = v` on an object: updates the
existing entry in place (keeping its position) or appends a new one. -/
def setKey : Doc → String → Value → Doc
  | [], k, v => [(k, v)]
  | (k', v') :: rest, k, v =>
      if k' = k then (k, v) :: rest else (k', v') :: setKey rest k v

/-- JavaScript property read `d[k]`: the stored value, or `undefined`
when the key is absent. -/
def getKey (d : Doc) (k : String) : Value :=
  match d.lookup k with
  | some v => v
  | none => .undefined

/-- Object spread `{ ...target, ...source }`: source entries assigned
into a copy of target, in source order. -/
def spreadInto (target : Doc) (source : Doc) : Doc :=
  source.foldl (fun acc e => setKey acc e.1 e.2) target

mutual

/-- Structural equality of values, modelling the JavaScript `SameValueZero`
comparison used by `Set` membership on the primitive values that occur in
configuration arrays. -/
def vbeq : Value → Value → Bool
  | .undefined, .undefined => true
  | .null, .null => true
  | .bool a, .bool b => a == b
  | .num a, .num b => a == b
  | .str a, .str b => a == b
  | .arr a, .arr b => vbeqList a b
  | .obj a, .obj b => vbeqFields a b
  | _, _ => false
termination_by a _ => sizeOf a

def vbeqList : List Value → List Value → Bool
  | [], [] => true
  | a :: as', b :: bs' => vbeq a b && vbeqList as' bs'
  | _, _ => false
termination_by a _ => sizeOf a

def vbeqFields : List (String × Value) → List (String × Value) → Bool
  | [], [] => true
  | (k, v) :: as', (k', v') :: bs' => k == k' && vbeq v v' && vbeqFields as' bs'
  | _, _ => false
termination_by a _ => sizeOf a

end

instance : BEq Value := ⟨vbeq⟩

/-- Models `[...new Set(l)]`: removes duplicates, keeping the first occurrence
of each element, preserving order. -/
def dedupFirst (l : List Value) : List Value :=
  l.foldl (fun acc v => if acc.contains v then acc else acc ++ [v]) []

/-- The `MergeStrategy` union from utils.ts. -/
inductive MergeStrategy where
  | deep | shallow | replace | append | prepend
  deriving DecidableEq, Repr

/-- The `arrayMergeStrategy` values from utils.ts. -/
inductive ArrayMergeStrategy where
  | replace | concat | unique
  deriving DecidableEq, Repr

/-- The `MergeOptions` record from utils.ts; the field defaults mirror the
destructuring defaults at the top of `deepMerge`. -/
structure MergeOptions where
  strategy : MergeStrategy := .deep
  arrayMergeStrategy : ArrayMergeStrategy := .replace
  customMergers : List (String × (Value → Value → Value)) := []
  skipKeys : List String := []
  onlyKeys : Option (List String) := none

/-- The guard `onlyKeys && !onlyKeys.includes(key)` of the `deepMerge`
loop: true when an onlyKeys list is given and excludes `key`. -/
def onlyKeysSkips (options : MergeOptions) (key : String) : Bool :=
  match options.onlyKeys with
  | some only => !only.contains key
  | none => false

mutual

/-- Models `deepMerge(target, source, options)` from utils.ts.  `shallow` is the
spread `{ ...target, ...source }`; `replace` returns `source`; every other
strategy (deep, append, prepend) falls through to the per-key deep loop. -/
def deepMerge (target : Doc) (source : Doc) (options : MergeOptions) : Doc :=
  match options.strategy with
  | .shallow => spreadInto target source
  | .replace => source
  | _ => mergeEntries options target source
termination_by (sizeOf source, 2)

/-- The `for (const key in source)` loop of `deepMerge`, threading the
`result` object through each iteration. -/
def mergeEntries (options : MergeOptions) (result : Doc) (source : List (String × Value)) :
    Doc :=
  match source with
  | [] => result
  | (key, sourceValue) :: rest =>
      mergeEntries options (mergeOne options result key sourceValue) rest
termination_by (sizeOf source, 0)

/-- One iteration of the `deepMerge` loop for entry `(key, sourceValue)`:
skip-key and only-key filtering and the `undefined` skip leave `result`
unchanged; every other branch assigns `mergeValue` at `key`. -/
def mergeOne (options : MergeOptions) (result : Doc) (key : String) (sourceValue : Value) :
    Doc :=
  if options.skipKeys.contains key then
    result
  else if onlyKeysSkips options key then
    result
  else if sourceValue.isUndefined then
    result
  else
    setKey result key (mergeValue options (getKey result key) key sourceValue)
termination_by (sizeOf sourceValue, 2)

/-- The value the `deepMerge` loop assigns for a non-skipped entry:
custom-merger dispatch, array policies, recursive object merge, and the
scalar / mismatched-type overwrite, in the source's order. -/
def mergeValue (options : MergeOptions) (targetValue : Value) (key : String)
    (sourceValue : Value) : Value :=
  match options.customMergers.lookup key with
  | some merger => merger targetValue sourceValue
  | none =>
    match sourceValue, targetValue with
    | .arr srcElems, .arr tgtElems =>
        (match options.arrayMergeStrategy with
         | .concat => Value.arr (tgtElems ++ srcElems)
         | .unique => Value.arr (dedupFirst (tgtElems ++ srcElems))
         | .replace => Value.arr srcElems)
    | .arr srcElems, _ => .arr srcElems
    | .obj srcFields, .obj tgtFields => .obj (deepMerge tgtFields srcFields options)
    | _, _ => sourceValue
termination_by (sizeOf sourceValue, 1)

end

/-- The return value of a schema `validator` callback: `boolean | string`. -/
inductive ValidatorRet where
  | asBool (b : Bool)
  | asStr (s : String)

/-- One entry of `ValidationSchema` from utils.ts.  `dflt` embeds the
`default` field, with `.undefined` standing for an absent default exactly as
in JavaScript; `children` may recursively hold a nested schema. -/
inductive ValidationRule where
  | mk (type? : Option String) (required : Bool) (dflt : Value)
       (validator? : Option (Value → ValidatorRet))
       (transform? : Option (Value → Value))
       (children? : Option (List (String × ValidationRule)))

/-- A `ValidationSchema`: an ordered mapping from key to rule. -/
abbrev Schema := List (String × ValidationRule)

def ValidationRule.type? : ValidationRule → Option String
  | .mk t _ _ _ _ _ => t

def ValidationRule.required : ValidationRule → Bool
  | .mk _ r _ _ _ _ => r

def ValidationRule.dflt : ValidationRule → Value
  | .mk _ _ d _ _ _ => d

def ValidationRule.validator? : ValidationRule → Option (Value → ValidatorRet)
  | .mk _ _ _ v _ _ => v

def ValidationRule.transform? : ValidationRule → Option (Value → Value)
  | .mk _ _ _ _ t _ => t

def ValidationRule.children? : ValidationRule → Option Schema
  | .mk _ _ _ _ _ c => c

/-- JavaScript `typeof` on embedded values. -/
def typeofValue : Value → String
  | .undefined => "undefined"
  | .null => "object"
  | .bool _ => "boolean"
  | .num _ => "number"
  | .str _ => "string"
  | .arr _ => "object"
  | .obj _ => "object"

/-- Models `Array.isArray(value) ? 'array' : typeof value` from `validateConfig`. -/
def actualTypeName (v : Value) : String :=
  if v.isArr then ("array") else typeofValue v

/-- Models `rule.transform ? rule.transform(value) : value`. -/
def applyTransform (transform? : Option (Value → Value)) (v : Value) : Value :=
  match transform? with
  | some f => f v
  | none => v

/-- The type check of `validateValue`: with a declared type, compare it
against `Array.isArray(value) ? 'array' : typeof value` and produce the
mismatch error, else no error. -/
def typeCheckErr (type? : Option String) (value : Value) (path : String) :
    Option String :=
  match type? with
  | some t =>
      if actualTypeName value = t then none
      else some (path ++ " should be " ++ t ++ ", got " ++ actualTypeName value)
  | none => none

/-- The custom-validator check of `validateValue`: anything other than
boolean `true` is an error — a returned string verbatim, boolean `false`
as the generic message. -/
def validatorCheckErr (validator? : Option (Value → ValidatorRet)) (value : Value)
    (path : String) : Option String :=
  match validator? with
  | some f =>
      match f value with
      | .asBool true => none
      | .asBool false => some (path ++ " validation failed")
      | .asStr s => some s
  | none => none

/-- The result record of `validateConfig`. -/
structure ValidationResult where
  isValid : Bool
  errors : List String
  validated : Doc

mutual

/-- Models `validateValue(value, key, rule, path)` from utils.ts, returning the
errors it pushes together with the outcome value it returns.  `path`
equals the key at the top level; nested paths arise from the recursive
`validateConfig` call whose errors are re-emitted with a `{path}.` front. -/
def validateValue (value : Value) (rule : ValidationRule) (path : String) :
    List String × Value :=
  match rule with
  | .mk type? required dflt validator? transform? children? =>
    if required && (value.isUndefined || value.isNull) then
      ([path ++ " is required"], dflt)
    else if value.isUndefined && !dflt.isUndefined then
      ([], dflt)
    else if value.isUndefined then
      ([], value)
    else
      let value := applyTransform transform? value
      match typeCheckErr type? value path with
      | some e => ([e], dflt)
      | none =>
        match validatorCheckErr validator? value path with
        | some e => ([e], dflt)
        | none =>
          match children? with
          | some childSchema =>
              if typeofValue value = "object" && !value.isArr then
                -- In JavaScript the only non-array values with typeof
                -- "object" are plain objects and null; a null value with a
                -- non-empty child schema would throw on property access,
                -- which no claim exercises — null exposes no fields here.
                let childResult := validateConfig value.objFields childSchema
                (childResult.errors.map (fun err => path ++ "." ++ err),
                 .obj childResult.validated)
              else ([], value)
          | none => ([], value)
termination_by (sizeOf rule, 0)

/-- The `for (const [key, rule] of Object.entries(schema))` loop of
`validateConfig`: accumulates errors in schema order and assigns each
key's outcome into the `validated` object. -/
def validateEntries (config : Doc) (validated : Doc) (schema : Schema) :
    List String × Doc :=
  match schema with
  | [] => ([], validated)
  | (key, rule) :: rest =>
      let headRes := validateValue (getKey config key) rule key
      let tailRes := validateEntries config (setKey validated key headRes.2) rest
      (headRes.1 ++ tailRes.1, tailRes.2)
termination_by (sizeOf schema, 0)

/-- Models `validateConfig(config, schema)` from utils.ts: `validated` starts as
`{ ...config }`, each schema key is processed in order, and `isValid`
holds exactly when no error was pushed. -/
def validateConfig (config : Doc) (schema : Schema) : ValidationResult :=
  let res := validateEntries config config schema
  ⟨res.1.isEmpty, res.1, res.2⟩
termination_by (sizeOf schema, 1)

end

/-- The `ConfigFormat` union from types.ts. -/
inductive ConfigFormat where
  | ts | js | json | json5 | yaml | yml | env
  deriving DecidableEq, Repr

def ConfigFormat.toStr : ConfigFormat → String
  | .ts => "ts"
  | .js => "js"
  | .json => "json"
  | .json5 => "json5"
  | .yaml => "yaml"
  | .yml => "yml"
  | .env => "env"

/-- Split a character list at every occurrence of `sep` (the splitting
done by `path.extname` and basename extraction on the character level). -/
def splitOnChar (sep : Char) : List Char → List (List Char)
  | [] => [[]]
  | c :: rest =>
      let r := splitOnChar sep rest
      if c = sep then [] :: r
      else
        match r with
        | g :: gs => (c :: g) :: gs
        | [] => [[c]]

/-- ASCII lower-casing of one character (`toLowerCase` on the extension
characters that can occur in a path). -/
def charLower (c : Char) : Char :=
  if 'A' ≤ c ∧ c ≤ 'Z' then Char.ofNat (c.toNat + 32) else c

/-- The characters of the extension of the last path segment (without
the dot), or `[]` when that segment has no dot. -/
def extChars (p : String) : List Char :=
  let base := (splitOnChar '/' p.data).getLastD []
  let parts := splitOnChar '.' base
  if parts.length ≤ 1 then [] else parts.getLastD []

/-- Node's `path.extname` for the shapes this repository generates
(`dir/name.config.ext`, `dir/name.config.env.ext`): the final `.` of the
last path segment onwards, or `""` when that segment has no dot. -/
def extnameSuffix (p : String) : String :=
  match extChars p with
  | [] => ""
  | cs => String.mk ('.' :: cs)

/-- Models `getConfigFormat(filePath)` from utils.ts: classify by the
lower-cased extension (`extname(filePath).slice(1).toLowerCase()`);
`mjs`/`cjs` count as `js`, `yml` counts as `yaml`. -/
def getConfigFormat (filePath : String) : Option ConfigFormat :=
  let ext := String.mk ((extChars filePath).map charLower)
  match ext with
  | "ts" => some .ts
  | "js" | "mjs" | "cjs" => some .js
  | "json" => some .json
  | "json5" => some .json5
  | "yaml" | "yml" => some .yaml
  | "env" => some .env
  | _ => none

/-- Models `path.resolve(configDir, file)` as path concatenation; the
claims about discovery concern only ordering and formats, which this
join preserves. -/
def resolvePath (dir file : String) : String :=
  if dir = "" then file else dir ++ "/" ++ file

/-- The default `extensions` list of `generateConfigPaths`. -/
def defaultExtensions : List ConfigFormat :=
  [.ts, .js, .json, .json5, .yaml, .yml, .env]

/-- Models `generateConfigPaths(configDir, name, env, extensions)` from utils.ts:
`{name}.config.{env}.{ext}` with an environment, `{name}.config.{ext}`
without. -/
def generateConfigPaths (configDir name : String) (env : Option String)
    (extensions : Option (List ConfigFormat)) : List String :=
  let exts := extensions.getD defaultExtensions
  exts.map (fun ext =>
    match env with
    | some e => resolvePath configDir (name ++ ".config." ++ e ++ "." ++ ext.toStr)
    | none => resolvePath configDir (name ++ ".config." ++ ext.toStr))

/-- The file-system facts `findConfigFiles` consults: which paths exist
and their modification times. -/
structure FileSystem where
  present : String → Bool
  mtimeOf : String → Nat

/-- The `ConfigFileInfo` record from types.ts, as populated by `findConfigFiles`. -/
structure ConfigFileInfo where
  path : String
  format : ConfigFormat
  ext : String
  env : Option String
  isBase : Bool
  mtime : Nat
  deriving DecidableEq, Repr

/-- One collection pass of `findConfigFiles`: keep the paths that exist
and have a recognized format, recording base/env metadata. -/
def collectExisting (fs : FileSystem) (paths : List String) (env : Option String)
    (isBase : Bool) : List ConfigFileInfo :=
  paths.filterMap (fun path =>
    if fs.present path then
      match getConfigFormat path with
      | some format =>
          some { path := path, format := format, ext := extnameSuffix path,
                 env := env, isBase := isBase, mtime := fs.mtimeOf path }
      | none => none
    else none)

/-- The base-file pass of `findConfigFiles`. -/
def baseConfigFiles (fs : FileSystem) (name configDir : String)
    (extensions : Option (List ConfigFormat)) : List ConfigFileInfo :=
  collectExisting fs (generateConfigPaths configDir name none extensions) none true

/-- The environment-file pass of `findConfigFiles` (empty when no
environment is requested). -/
def envConfigFiles (fs : FileSystem) (name configDir : String) (env : Option String)
    (extensions : Option (List ConfigFormat)) : List ConfigFileInfo :=
  match env with
  | some e => collectExisting fs (generateConfigPaths configDir name (some e) extensions)
      (some e) false
  | none => []

/-- The `priorityOrder` list from `findConfigFiles`. -/
def priorityOrder : List String := ["env", "yml", "yaml", "json5", "json", "js", "ts"]

/-- Models `priorityOrder.indexOf(format)`: the index, or `-1` when absent,
exactly as JavaScript's `Array.prototype.indexOf`. -/
def priorityIndex (f : ConfigFormat) : Int :=
  match priorityOrder.findIdx? (fun s => s == f.toStr) with
  | some i => (i : Int)
  | none => -1

/-- The comparator `(a, b) => indexA - indexB` of `findConfigFiles`, as
the ordering it induces on the sorted output. -/
def fileLE (a b : ConfigFileInfo) : Bool :=
  decide (priorityIndex a.format ≤ priorityIndex b.format)

/-- Models `findConfigFiles(name, configDir, env, extensions)` from utils.ts:
collect existing base files, then existing environment files, then sort
the combined list by format priority with JavaScript's stable sort. -/
def findConfigFiles (fs : FileSystem) (name configDir : String) (env : Option String)
    (extensions : Option (List ConfigFormat)) : List ConfigFileInfo :=
  (baseConfigFiles fs name configDir extensions
    ++ envConfigFiles fs name configDir env extensions).mergeSort fileLE

/-- Claim C9's ordering shape: every base file occurs before every
environment-specific file (the list is a block of base files followed by
a block of non-base files). -/
def basesFirst (files : List ConfigFileInfo) : Bool :=
  (files.dropWhile (fun f => f.isBase)).all (fun f => !f.isBase)

/-- A concrete file system holding a TypeScript base config and a dotenv
environment config, exercising the discovery sort. -/
def fsTsEnv : FileSystem :=
  ⟨fun p => p == "app.config.ts" || p == "app.config.dev.env", fun _ => 0⟩

/-- A concrete file system holding a dotenv base config and a dotenv
environment config (equal format priority). -/
def fsEnvEnv : FileSystem :=
  ⟨fun p => p == "app.config.env" || p == "app.config.dev.env", fun _ => 0⟩

namespace Lemmas

theorem lookup_setKey_self (d : Doc) (k : String) (v : Value) :
    (setKey d k v).lookup k = some v := by
  induction d with
  | nil => simp [setKey, List.lookup]
  | cons e rest ih =>
      obtain ⟨k', v'⟩ := e
      by_cases h : k' = k
      · subst h; simp [setKey, List.lookup]
      · have hne : (k == k') = false := beq_eq_false_iff_ne.mpr (Ne.symm h)
        simp [setKey, h, List.lookup, hne, ih]

theorem lookup_setKey_ne (d : Doc) (k k' : String) (v : Value) (h : k' ≠ k) :
    (setKey d k' v).lookup k = d.lookup k := by
  have hne : (k == k') = false := beq_eq_false_iff_ne.mpr (Ne.symm h)
  induction d with
  | nil => simp [setKey, List.lookup, hne]
  | cons e rest ih =>
      obtain ⟨k₀, v₀⟩ := e
      by_cases h₀ : k₀ = k'
      · subst h₀; simp [setKey, List.lookup, hne]
      · simp [setKey, h₀, List.lookup, ih]

theorem getKey_eq_of_lookup_eq {d₁ d₂ : Doc} {k : String}
    (h : d₁.lookup k = d₂.lookup k) : getKey d₁ k = getKey d₂ k := by
  simp [getKey, h]

theorem mergeOne_lookup_ne (o : MergeOptions) (r : Doc) (key k : String) (v : Value)
    (h : key ≠ k) : (mergeOne o r key v).lookup k = r.lookup k := by
  simp only [mergeOne]
  repeat' split
  any_goals rfl
  exact lookup_setKey_ne r k key _ h

theorem mergeOne_filtered (o : MergeOptions) (r : Doc) (key : String) (v : Value)
    (h : o.skipKeys.contains key = true ∨ onlyKeysSkips o key = true) :
    mergeOne o r key v = r := by
  simp only [mergeOne]
  split
  · rfl
  · split
    · rfl
    · rcases h with h | h <;> simp_all

theorem mergeOne_undefinedSkip (o : MergeOptions) (r : Doc) (key : String) (v : Value)
    (h : v.isUndefined = true) : mergeOne o r key v = r := by
  simp only [mergeOne, h]
  split
  · rfl
  · split
    · rfl
    · simp

theorem mergeOne_set (o : MergeOptions) (r : Doc) (key : String) (v : Value)
    (hs : o.skipKeys.contains key = false) (ho : onlyKeysSkips o key = false)
    (hu : v.isUndefined = false) :
    mergeOne o r key v = setKey r key (mergeValue o (getKey r key) key v) := by
  simp only [mergeOne]
  rw [hs, ho, hu]
  simp

theorem mergeEntries_lookup_not_mem (o : MergeOptions) (k : String) :
    ∀ (l : List (String × Value)) (r : Doc), k ∉ l.map Prod.fst →
      (mergeEntries o r l).lookup k = r.lookup k := by
  intro l
  induction l with
  | nil => intro r _; simp [mergeEntries]
  | cons e rest ih =>
      intro r h
      obtain ⟨k', v'⟩ := e
      simp only [List.map_cons, List.mem_cons, not_or] at h
      simp only [mergeEntries]
      rw [ih _ h.2, mergeOne_lookup_ne _ _ _ _ _ (Ne.symm h.1)]

theorem mergeEntries_lookup_found (o : MergeOptions) (k : String) (v : Value)
    (hs : o.skipKeys.contains k = false) (ho : onlyKeysSkips o k = false)
    (hu : v.isUndefined = false) :
    ∀ (l : List (String × Value)) (r : Doc), (l.map Prod.fst).Nodup →
      l.lookup k = some v →
      (mergeEntries o r l).lookup k = some (mergeValue o (getKey r k) k v) := by
  intro l
  induction l with
  | nil => intro r _ hl; simp [List.lookup] at hl
  | cons e rest ih =>
      intro r hnd hl
      obtain ⟨k', v'⟩ := e
      by_cases hk : k = k'
      · subst hk
        have hv : v' = v := by simpa [List.lookup] using hl
        subst hv
        rw [List.map_cons] at hnd
        have hnot : k ∉ rest.map Prod.fst := (List.nodup_cons.mp hnd).1
        simp only [mergeEntries]
        rw [mergeEntries_lookup_not_mem o k rest _ hnot, mergeOne_set o r k v' hs ho hu,
          lookup_setKey_self]
      · have hl' : rest.lookup k = some v := by
          have hne : (k == k') = false := beq_eq_false_iff_ne.mpr hk
          simpa [List.lookup, hne] using hl
        rw [List.map_cons] at hnd
        have hnd' : (rest.map Prod.fst).Nodup := (List.nodup_cons.mp hnd).2
        simp only [mergeEntries]
        rw [ih (mergeOne o r k' v') hnd' hl',
          getKey_eq_of_lookup_eq (mergeOne_lookup_ne o r k' k v' (Ne.symm hk))]

theorem deepMerge_deep (t s : Doc) (o : MergeOptions) (h : o.strategy = .deep) :
    deepMerge t s o = mergeEntries o t s := by
  simp [deepMerge, h]

theorem mergeValue_scalar (o : MergeOptions) (tv : Value) (k : String) (v : Value)
    (hm : o.customMergers.lookup k = none) (hv : v.isScalar = true) :
    mergeValue o tv k v = v := by
  cases v
  case undefined => simp [Value.isScalar] at hv
  case arr => simp [Value.isScalar] at hv
  case obj => simp [Value.isScalar] at hv
  all_goals (cases tv <;> simp only [mergeValue] <;> rw [hm])

theorem mergeValue_null (o : MergeOptions) (tv : Value) (k : String)
    (hm : o.customMergers.lookup k = none) :
    mergeValue o tv k .null = .null := by
  simp only [mergeValue, hm]

theorem mergeValue_arr_arr (o : MergeOptions) (ys : List Value) (k : String)
    (xs : List Value) (hm : o.customMergers.lookup k = none) :
    mergeValue o (.arr ys) k (.arr xs) =
      (match o.arrayMergeStrategy with
       | .concat => Value.arr (ys ++ xs)
       | .unique => Value.arr (dedupFirst (ys ++ xs))
       | .replace => Value.arr xs) := by
  simp only [mergeValue, hm]

theorem mergeValue_arr_notarr (o : MergeOptions) (tv : Value) (k : String)
    (xs : List Value) (hm : o.customMergers.lookup k = none) (htv : tv.isArr = false) :
    mergeValue o tv k (.arr xs) = .arr xs := by
  cases tv
  case arr => simp [Value.isArr] at htv
  all_goals simp only [mergeValue]
  all_goals rw [hm]

theorem mergeEntries_lookup_undef_entry (o : MergeOptions) (k : String) (v : Value)
    (hu : v.isUndefined = true) :
    ∀ (l : List (String × Value)) (r : Doc), (l.map Prod.fst).Nodup →
      l.lookup k = some v →
      (mergeEntries o r l).lookup k = r.lookup k := by
  intro l
  induction l with
  | nil => intro r _ hl; simp [List.lookup] at hl
  | cons e rest ih =>
      intro r hnd hl
      obtain ⟨k', v'⟩ := e
      rw [List.map_cons] at hnd
      by_cases hk : k = k'
      · subst hk
        have hv : v' = v := by simpa [List.lookup] using hl
        subst hv
        have hnot : k ∉ rest.map Prod.fst := (List.nodup_cons.mp hnd).1
        simp only [mergeEntries]
        rw [mergeEntries_lookup_not_mem o k rest _ hnot, mergeOne_undefinedSkip o r k v' hu]
      · have hne : (k == k') = false := beq_eq_false_iff_ne.mpr hk
        have hl' : rest.lookup k = some v := by simpa [List.lookup, hne] using hl
        simp only [mergeEntries]
        rw [ih (mergeOne o r k' v') (List.nodup_cons.mp hnd).2 hl',
          mergeOne_lookup_ne o r k' k v' (Ne.symm hk)]

theorem mergeEntries_lookup_filtered (o : MergeOptions) (k : String)
    (hf : o.skipKeys.contains k = true ∨ onlyKeysSkips o k = true) :
    ∀ (l : List (String × Value)) (r : Doc),
      (mergeEntries o r l).lookup k = r.lookup k := by
  intro l
  induction l with
  | nil => intro r; simp [mergeEntries]
  | cons e rest ih =>
      intro r
      obtain ⟨k', v'⟩ := e
      simp only [mergeEntries]
      by_cases hk : k' = k
      · subst hk
        rw [ih, mergeOne_filtered o r k' v' hf]
      · rw [ih, mergeOne_lookup_ne o r k' k v' hk]

theorem validateEntries_lookup_not_mem (config : Doc) (k : String) :
    ∀ (s : Schema) (validated : Doc), k ∉ s.map Prod.fst →
      (validateEntries config validated s).2.lookup k = validated.lookup k := by
  intro s
  induction s with
  | nil => intro validated _; simp [validateEntries]
  | cons e rest ih =>
      intro validated h
      obtain ⟨k', r⟩ := e
      simp only [List.map_cons, List.mem_cons, not_or] at h
      simp only [validateEntries]
      rw [ih _ h.2, lookup_setKey_ne _ _ _ _ (Ne.symm h.1)]

theorem validateEntries_lookup_mem (config : Doc) (k : String) (r : ValidationRule) :
    ∀ (s : Schema) (validated : Doc), (s.map Prod.fst).Nodup → (k, r) ∈ s →
      (validateEntries config validated s).2.lookup k =
        some (validateValue (getKey config k) r k).2 := by
  intro s
  induction s with
  | nil => intro validated _ hmem; simp at hmem
  | cons e rest ih =>
      intro validated hnd hmem
      obtain ⟨k', r'⟩ := e
      rw [List.map_cons] at hnd
      rcases List.mem_cons.mp hmem with hhead | htail
      · injection hhead with hk hr
        subst hk; subst hr
        have hnot : k ∉ rest.map Prod.fst := (List.nodup_cons.mp hnd).1
        simp only [validateEntries]
        rw [validateEntries_lookup_not_mem config k rest _ hnot, lookup_setKey_self]
      · simp only [validateEntries]
        rw [ih _ (List.nodup_cons.mp hnd).2 htail]

theorem validateEntries_errors_sublist (config : Doc) (k : String) (r : ValidationRule) :
    ∀ (s : Schema) (validated : Doc), (k, r) ∈ s →
      (validateValue (getKey config k) r k).1.Sublist
        (validateEntries config validated s).1 := by
  intro s
  induction s with
  | nil => intro validated hmem; simp at hmem
  | cons e rest ih =>
      intro validated hmem
      obtain ⟨k', r'⟩ := e
      simp only [validateEntries]
      rcases List.mem_cons.mp hmem with hhead | htail
      · injection hhead with hk hr
        subst hk; subst hr
        exact List.sublist_append_left _ _
      · exact (ih _ htail).trans (List.sublist_append_right _ _)

theorem validateConfig_eq (c : Doc) (s : Schema) :
    validateConfig c s =
      ⟨(validateEntries c c s).1.isEmpty, (validateEntries c c s).1,
       (validateEntries c c s).2⟩ := by
  simp only [validateConfig]

theorem validateValue_required (value : Value) (rule : ValidationRule) (path : String)
    (hreq : rule.required = true) (hnull : (value.isUndefined || value.isNull) = true) :
    validateValue value rule path = ([path ++ " is required"], rule.dflt) := by
  obtain ⟨t, req, df, vd, tf, ch⟩ := rule
  simp only [ValidationRule.required] at hreq
  simp only [ValidationRule.dflt]
  simp only [validateValue, hreq, hnull]
  simp

theorem validateValue_default_fill (value : Value) (rule : ValidationRule) (path : String)
    (hreq : rule.required = false) (habsent : value.isUndefined = true)
    (hdflt : rule.dflt.isUndefined = false) :
    validateValue value rule path = ([], rule.dflt) := by
  obtain ⟨t, req, df, vd, tf, ch⟩ := rule
  simp only [ValidationRule.required] at hreq
  simp only [ValidationRule.dflt] at hdflt ⊢
  simp only [validateValue, hreq, habsent, hdflt]
  simp

theorem validateValue_absent_no_default (value : Value) (rule : ValidationRule)
    (path : String) (hreq : rule.required = false) (habsent : value.isUndefined = true)
    (hdflt : rule.dflt.isUndefined = true) :
    validateValue value rule path = ([], value) := by
  obtain ⟨t, req, df, vd, tf, ch⟩ := rule
  simp only [ValidationRule.required] at hreq
  simp only [ValidationRule.dflt] at hdflt
  simp only [validateValue, hreq, habsent, hdflt]
  simp

theorem getKey_of_lookup {d : Doc} {k : String} {v : Value}
    (h : d.lookup k = some v) : getKey d k = v := by
  simp [getKey, h]

theorem validateValue_type_mismatch (value : Value) (rule : ValidationRule) (path : String)
    (hfirst : (rule.required && (value.isUndefined || value.isNull)) = false)
    (habsent : value.isUndefined = false)
    (ty : String) (htype : rule.type? = some ty)
    (hmis : actualTypeName (applyTransform rule.transform? value) ≠ ty) :
    validateValue value rule path =
      ([path ++ " should be " ++ ty ++ ", got " ++
          actualTypeName (applyTransform rule.transform? value)], rule.dflt) := by
  obtain ⟨t, req, df, vd, tf, ch⟩ := rule
  simp only [ValidationRule.required] at hfirst
  simp only [ValidationRule.type?] at htype
  simp only [ValidationRule.transform?] at hmis ⊢
  simp only [ValidationRule.dflt]
  subst htype
  simp only [validateValue]
  rw [hfirst]
  simp only [habsent]
  simp [typeCheckErr, hmis]

theorem validateValue_children_obj (fields : List (String × Value))
    (rule : ValidationRule) (path : String)
    (htf : rule.transform? = none)
    (htype : rule.type? = none ∨ rule.type? = some ("object"))
    (hvd : rule.validator? = none)
    (cs : Schema) (hch : rule.children? = some cs) :
    validateValue (.obj fields) rule path =
      ((validateConfig fields cs).errors.map (fun err => path ++ "." ++ err),
       .obj (validateConfig fields cs).validated) := by
  obtain ⟨t, req, df, vd, tf, ch⟩ := rule
  simp only [ValidationRule.transform?] at htf
  simp only [ValidationRule.type?] at htype
  simp only [ValidationRule.validator?] at hvd
  simp only [ValidationRule.children?] at hch
  subst htf; subst hvd; subst hch
  rcases htype with h | h <;> subst h <;>
    simp [validateValue, Value.isUndefined, Value.isNull, applyTransform, typeCheckErr,
      validatorCheckErr, actualTypeName, Value.isArr, typeofValue, Value.objFields]

end Lemmas

/-- C1: merge is right-biased — under the deep strategy, with no custom
merger registered for `k`, `k` not filtered by skipKeys/onlyKeys, and a
scalar source value (string, number, boolean, or explicit null) at a key
`k` present in both documents, the merged document carries the source's
value at `k`. -/
theorem merge_right_biased_scalar
    (target source : Doc) (k : String) (v : Value) (o : MergeOptions)
    (hstrat : o.strategy = .deep)
    (hnodup : (source.map Prod.fst).Nodup)
    (hsrc : source.lookup k = some v)
    (htgt : (target.lookup k).isSome = true)
    (hscalar : v.isScalar = true)
    (hmerger : o.customMergers.lookup k = none)
    (hskip : o.skipKeys.contains k = false)
    (honly : onlyKeysSkips o k = false) :
    (deepMerge target source o).lookup k = some v := by
  have hu : v.isUndefined = false := by
    cases v <;> simp_all [Value.isScalar, Value.isUndefined]
  rw [Lemmas.deepMerge_deep target source o hstrat,
    Lemmas.mergeEntries_lookup_found o k v hskip honly hu source target hnodup hsrc,
    Lemmas.mergeValue_scalar o _ k v hmerger hscalar]

theorem merge_right_biased_scalar_witness :
    (deepMerge [("port", .num 1)] [("port", .num 7)] {}).lookup ("port") =
      some (.num 7) :=
  merge_right_biased_scalar [("port", .num 1)] [("port", .num 7)] "port" (.num 7) {}
    rfl (by simp) rfl rfl rfl rfl rfl rfl

/-- C2: under the deep strategy (no custom merger, unfiltered key), a
sequence source value at `k` merges with an array target value per the
array policy — `replace` takes the source sequence, `concat` appends the
source's elements after the target's, `unique` deduplicates the
concatenation keeping first occurrences — and overwrites any non-array
target value as-is. -/
theorem merge_array_policies
    (target source : Doc) (k : String) (xs : List Value) (o : MergeOptions)
    (hstrat : o.strategy = .deep)
    (hnodup : (source.map Prod.fst).Nodup)
    (hsrc : source.lookup k = some (.arr xs))
    (hmerger : o.customMergers.lookup k = none)
    (hskip : o.skipKeys.contains k = false)
    (honly : onlyKeysSkips o k = false) :
    (∀ ys, getKey target k = .arr ys →
       (deepMerge target source o).lookup k =
         some (match o.arrayMergeStrategy with
               | .replace => Value.arr xs
               | .concat => Value.arr (ys ++ xs)
               | .unique => Value.arr (dedupFirst (ys ++ xs))))
    ∧ ((getKey target k).isArr = false →
       (deepMerge target source o).lookup k = some (.arr xs)) := by
  rw [Lemmas.deepMerge_deep target source o hstrat,
    Lemmas.mergeEntries_lookup_found o k (.arr xs) hskip honly rfl source target hnodup hsrc]
  constructor
  · intro ys hys
    rw [hys, Lemmas.mergeValue_arr_arr o ys k xs hmerger]
    cases o.arrayMergeStrategy <;> rfl
  · intro hna
    rw [Lemmas.mergeValue_arr_notarr o _ k xs hmerger hna]

theorem merge_array_policies_witness :
    (deepMerge [("items", .arr [.num 1, .num 2])] [("items", .arr [.num 2, .num 3])]
        { arrayMergeStrategy := .concat }).lookup ("items") =
      some (.arr [.num 1, .num 2, .num 2, .num 3]) :=
  ((merge_array_policies [("items", .arr [.num 1, .num 2])]
      [("items", .arr [.num 2, .num 3])] "items" [.num 2, .num 3]
      { arrayMergeStrategy := .concat }
      rfl (by simp) rfl rfl rfl rfl).1 [.num 1, .num 2] rfl).trans rfl

/-- C3: skipKeys/onlyKeys filtering precedes custom-merger dispatch — if
`k` is in skipKeys, or onlyKeys is given and excludes `k`, the deep merge
leaves the result at `k` exactly as in the target (for every customMergers
map, so no registered merger can influence the outcome). -/
theorem merge_filtered_key_preserved
    (target source : Doc) (k : String) (o : MergeOptions)
    (hstrat : o.strategy = .deep)
    (hfilter : o.skipKeys.contains k = true ∨ onlyKeysSkips o k = true) :
    (deepMerge target source o).lookup k = target.lookup k := by
  rw [Lemmas.deepMerge_deep target source o hstrat]
  exact Lemmas.mergeEntries_lookup_filtered o k hfilter source target

theorem merge_filtered_key_preserved_witness :
    (deepMerge [("a", .num 1), ("b", .num 2)] [("a", .num 9), ("b", .num 9)]
        { skipKeys := ["b"] }).lookup ("b") = some (.num 2) :=
  (merge_filtered_key_preserved [("a", .num 1), ("b", .num 2)]
      [("a", .num 9), ("b", .num 9)] "b" { skipKeys := ["b"] }
      rfl (Or.inl rfl)).trans rfl

/-- C10: under the deep strategy (no custom merger, unfiltered key), an
explicit null source value at `k` overwrites the target's value — even a
mapping — while the `undefined` absent-marker is skipped, leaving the
target's value at `k` untouched. -/
theorem merge_null_vs_undefined
    (target source : Doc) (k : String) (o : MergeOptions)
    (hstrat : o.strategy = .deep)
    (hnodup : (source.map Prod.fst).Nodup)
    (hmerger : o.customMergers.lookup k = none)
    (hskip : o.skipKeys.contains k = false)
    (honly : onlyKeysSkips o k = false) :
    (source.lookup k = some .null →
       (deepMerge target source o).lookup k = some .null)
    ∧ (source.lookup k = some .undefined →
       (deepMerge target source o).lookup k = target.lookup k) := by
  constructor
  · intro hsrc
    rw [Lemmas.deepMerge_deep target source o hstrat,
      Lemmas.mergeEntries_lookup_found o k .null hskip honly rfl source target hnodup hsrc,
      Lemmas.mergeValue_null o _ k hmerger]
  · intro hsrc
    rw [Lemmas.deepMerge_deep target source o hstrat]
    exact Lemmas.mergeEntries_lookup_undef_entry o k .undefined rfl source target hnodup hsrc

theorem merge_null_vs_undefined_witness :
    (deepMerge [("db", .obj [("x", .num 1)])] [("db", .null)] {}).lookup ("db") =
      some .null :=
  (merge_null_vs_undefined [("db", .obj [("x", .num 1)])] [("db", .null)] "db" {}
      rfl (by simp) rfl rfl rfl).1 rfl

/-- C4: validation of missing values — a required key that is absent or
explicit null yields the error "{path} is required" with the rule's
default as outcome; an absent non-required key with a default is filled
with the default (no further checks run, whatever the rule's transform,
type, validator or children are); an absent key with no default stays
absent (the `undefined` marker). -/
theorem validate_missing_value_handling
    (config : Doc) (schema : Schema) (k : String) (r : ValidationRule)
    (hnodup : (schema.map Prod.fst).Nodup)
    (hmem : (k, r) ∈ schema) :
    (r.required = true → ((getKey config k).isUndefined || (getKey config k).isNull) = true →
       getKey (validateConfig config schema).validated k = r.dflt ∧
       (k ++ " is required") ∈ (validateConfig config schema).errors)
    ∧ (r.required = false → (getKey config k).isUndefined = true → r.dflt.isUndefined = false →
       getKey (validateConfig config schema).validated k = r.dflt)
    ∧ (r.required = false → (getKey config k).isUndefined = true → r.dflt.isUndefined = true →
       getKey (validateConfig config schema).validated k = .undefined) := by
  rw [Lemmas.validateConfig_eq]
  refine ⟨fun hreq hnull => ⟨?_, ?_⟩, fun hreq habsent hdflt => ?_, fun hreq habsent hdflt => ?_⟩
  · apply Lemmas.getKey_of_lookup
    rw [Lemmas.validateEntries_lookup_mem config k r schema config hnodup hmem,
      Lemmas.validateValue_required _ _ _ hreq hnull]
  · have hs := Lemmas.validateEntries_errors_sublist config k r schema config hmem
    rw [Lemmas.validateValue_required _ _ _ hreq hnull] at hs
    exact hs.subset (List.mem_singleton.mpr rfl)
  · apply Lemmas.getKey_of_lookup
    rw [Lemmas.validateEntries_lookup_mem config k r schema config hnodup hmem,
      Lemmas.validateValue_default_fill _ _ _ hreq habsent hdflt]
  · apply Lemmas.getKey_of_lookup
    rw [Lemmas.validateEntries_lookup_mem config k r schema config hnodup hmem,
      Lemmas.validateValue_absent_no_default _ _ _ hreq habsent hdflt]
    have : getKey config k = .undefined := by
      cases h : getKey config k <;> simp_all [Value.isUndefined]
    rw [this]

theorem validate_missing_value_handling_witness :
    getKey (validateConfig []
        [("host", .mk none false (.str ("localhost")) none none none)]).validated ("host") =
      .str ("localhost") :=
  (validate_missing_value_handling []
      [("host", .mk none false (.str ("localhost")) none none none)] "host"
      (.mk none false (.str ("localhost")) none none none)
      (by simp) (List.mem_cons_self _ _)).2.1 rfl rfl rfl

/-- C5: a declared type is checked against the transformed value's actual
type (sequences report as "array"); on mismatch the error
"{path} should be {type}, got {actual}" is recorded, the rule's default
(or the absent marker) becomes the outcome, and no validator or children
check runs (the conclusion holds for every validator and children field). -/
theorem validate_type_mismatch
    (config : Doc) (schema : Schema) (k : String) (r : ValidationRule) (ty : String)
    (hnodup : (schema.map Prod.fst).Nodup)
    (hmem : (k, r) ∈ schema)
    (hfirst : (r.required && ((getKey config k).isUndefined || (getKey config k).isNull)) = false)
    (habsent : (getKey config k).isUndefined = false)
    (htype : r.type? = some ty)
    (hmis : actualTypeName (applyTransform r.transform? (getKey config k)) ≠ ty) :
    getKey (validateConfig config schema).validated k = r.dflt
    ∧ (k ++ " should be " ++ ty ++ ", got " ++
        actualTypeName (applyTransform r.transform? (getKey config k)))
        ∈ (validateConfig config schema).errors := by
  rw [Lemmas.validateConfig_eq]
  constructor
  · apply Lemmas.getKey_of_lookup
    rw [Lemmas.validateEntries_lookup_mem config k r schema config hnodup hmem,
      Lemmas.validateValue_type_mismatch _ _ _ hfirst habsent ty htype hmis]
  · have hs := Lemmas.validateEntries_errors_sublist config k r schema config hmem
    rw [Lemmas.validateValue_type_mismatch _ _ _ hfirst habsent ty htype hmis] at hs
    exact hs.subset (List.mem_singleton.mpr rfl)

theorem validate_type_mismatch_witness :
    getKey (validateConfig [("port", .str ("abc"))]
        [("port", .mk (some ("number")) false .undefined none none none)]).validated ("port") =
      .undefined
    ∧ ("port" ++ " should be " ++ "number" ++ ", got " ++
        actualTypeName (applyTransform none (getKey [("port", .str ("abc"))] "port")))
        ∈ (validateConfig [("port", .str ("abc"))]
            [("port", .mk (some ("number")) false .undefined none none none)]).errors :=
  validate_type_mismatch [("port", .str ("abc"))]
    [("port", .mk (some ("number")) false .undefined none none none)] "port"
    (.mk (some ("number")) false .undefined none none none) "number"
    (by simp) (List.mem_cons_self _ _) rfl rfl rfl (by decide)

/-- C6: a rule with children applied to a mapping value recursively
validates the value against the child schema: the nested validated
document becomes the outcome at that key, and every nested error is
re-emitted with the "{parentPath}." front (e.g. "database.port is
required"). -/
theorem validate_children_nested
    (config : Doc) (schema : Schema) (k : String) (r : ValidationRule)
    (fields : List (String × Value)) (cs : Schema)
    (hnodup : (schema.map Prod.fst).Nodup)
    (hmem : (k, r) ∈ schema)
    (hval : getKey config k = .obj fields)
    (htf : r.transform? = none)
    (htype : r.type? = none ∨ r.type? = some ("object"))
    (hvd : r.validator? = none)
    (hch : r.children? = some cs) :
    getKey (validateConfig config schema).validated k =
      .obj (validateConfig fields cs).validated
    ∧ ((validateConfig fields cs).errors.map (fun err => k ++ "." ++ err)).Sublist
        (validateConfig config schema).errors := by
  rw [Lemmas.validateConfig_eq]
  constructor
  · apply Lemmas.getKey_of_lookup
    rw [Lemmas.validateEntries_lookup_mem config k r schema config hnodup hmem, hval,
      Lemmas.validateValue_children_obj fields r k htf htype hvd cs hch]
  · have hs := Lemmas.validateEntries_errors_sublist config k r schema config hmem
    rw [hval, Lemmas.validateValue_children_obj fields r k htf htype hvd cs hch] at hs
    exact hs

theorem validate_children_nested_witness :
    ("database" ++ "." ++ ("port" ++ " is required"))
      ∈ (validateConfig [("database", .obj [])]
          [("database", .mk none false .undefined none none
             (some [("port", .mk none true .undefined none none none)]))]).errors := by
  have h := (validate_children_nested [("database", .obj [])]
    [("database", .mk none false .undefined none none
       (some [("port", .mk none true .undefined none none none)]))]
    "database"
    (.mk none false .undefined none none
       (some [("port", .mk none true .undefined none none none)]))
    [] [("port", .mk none true .undefined none none none)]
    (by simp) (List.mem_cons_self _ _) rfl rfl (Or.inl rfl) rfl rfl).2
  refine h.subset ?_
  have he : (validateConfig ([] : Doc)
      [("port", .mk none true .undefined none none none)]).errors =
      ["port" ++ " is required"] := by
    rw [Lemmas.validateConfig_eq]
    simp only [validateEntries]
    rw [Lemmas.validateValue_required (getKey [] "port")
      (.mk none true .undefined none none none) "port" rfl rfl]
    simp [validateEntries]
  rw [he]
  exact List.mem_singleton.mpr rfl

/-- C7: validation never discards unknown keys — a key of the config not
named in the schema keeps exactly its original binding in `validated` —
and `isValid` holds exactly when the error list is empty. -/
theorem validate_unknown_keys_pass
    (config : Doc) (schema : Schema) (k : String)
    (hk : k ∉ schema.map Prod.fst) :
    (validateConfig config schema).validated.lookup k = config.lookup k
    ∧ ((validateConfig config schema).isValid = true ↔
        (validateConfig config schema).errors = []) := by
  rw [Lemmas.validateConfig_eq]
  exact ⟨Lemmas.validateEntries_lookup_not_mem config k schema config hk,
    by simp [List.isEmpty_iff]⟩

theorem validate_unknown_keys_pass_witness :
    (validateConfig [("extra", .num 5)]
        [("host", .mk none false (.str ("localhost")) none none none)]).validated.lookup
        ("extra") = some (.num 5) :=
  ((validate_unknown_keys_pass [("extra", .num 5)]
      [("host", .mk none false (.str ("localhost")) none none none)] "extra"
      (by simp)).1).trans rfl

/-- C9 counterexample: with a TypeScript base config and a dotenv
environment config on disk, `findConfigFiles` returns the environment
file first (format priority env < ts sorts the combined list), so the
returned sequence does not list every base file before every
environment-specific file. -/
theorem findConfigFiles_env_before_base :
    basesFirst (findConfigFiles fsTsEnv ("app") "" (some ("dev")) none) = false := by
  simp [findConfigFiles, baseConfigFiles, envConfigFiles, collectExisting,
    generateConfigPaths, defaultExtensions, resolvePath, getConfigFormat,
    extChars, splitOnChar, charLower, fsTsEnv, List.mergeSort, fileLE, priorityIndex,
    priorityOrder, basesFirst, ConfigFormat.toStr, extnameSuffix]

/-- C9 (amended): `findConfigFiles` returns a permutation of the
discovered base files followed by the discovered environment files,
sorted nondecreasingly by format priority (env < yml < yaml < json5 <
json < js < ts) across the combined list — not base-before-env globally;
the sort is stable, so a base file still precedes an environment file
whenever its format priority is less than or equal (in particular,
within the same format). -/
theorem findConfigFiles_priority_order
    (fs : FileSystem) (name configDir : String) (env : Option String)
    (exts : Option (List ConfigFormat)) :
    ((findConfigFiles fs name configDir env exts).Perm
       (baseConfigFiles fs name configDir exts
         ++ envConfigFiles fs name configDir env exts))
    ∧ (findConfigFiles fs name configDir env exts).Pairwise
        (fun a b => fileLE a b = true)
    ∧ (∀ a b, a ∈ baseConfigFiles fs name configDir exts →
        b ∈ envConfigFiles fs name configDir env exts → fileLE a b = true →
        [a, b].Sublist (findConfigFiles fs name configDir env exts)) := by
  have htrans : ∀ a b c : ConfigFileInfo, fileLE a b = true → fileLE b c = true →
      fileLE a c = true := by
    intro a b c hab hbc
    simp only [fileLE, decide_eq_true_eq] at hab hbc ⊢
    omega
  have htotal : ∀ a b : ConfigFileInfo, (fileLE a b || fileLE b a) = true := by
    intro a b
    simp only [fileLE, Bool.or_eq_true, decide_eq_true_eq]
    omega
  refine ⟨List.mergeSort_perm _ _, List.sorted_mergeSort htrans htotal _, ?_⟩
  intro a b ha hb hab
  exact List.mergeSort_stable_pair htrans htotal hab
    (List.Sublist.append (List.singleton_sublist.mpr ha) (List.singleton_sublist.mpr hb))

theorem findConfigFiles_priority_order_witness :
    [ { path := "app.config.env", format := .env, ext := ".env", env := none,
        isBase := true, mtime := 0 },
      { path := "app.config.dev.env", format := .env, ext := ".env",
        env := some ("dev"), isBase := false, mtime := 0 } ].Sublist
      (findConfigFiles fsEnvEnv ("app") "" (some ("dev")) none) :=
  (findConfigFiles_priority_order fsEnvEnv ("app") "" (some ("dev")) none).2.2 _ _
    (by decide) (by decide) (by decide)

end LDConfig
